import Mathlib

/-!
# Verification of a C4.5 decision-tree builder

Shallow embedding of `src/main.py` (entropy / gain-ratio computation,
recursive tree induction, deterministic serialization).  Python's
floating-point arithmetic is modelled over `ℝ` with `Real.logb 2`;
Python dicts are modelled as association lists in insertion order,
which matches CPython's guaranteed dict iteration order.
-/

namespace C45

/-- A scalar cell value: the int/string union produced by the data loader
(`load_data` coerces each field to `int` or leaves it a `str`; claims do
not exercise the `float` case, whose grouping behaviour is identical). -/
inductive Value where
  | vInt (i : Int)
  | vStr (s : String)
deriving DecidableEq, Repr, Inhabited

/-- Python `str(value)`: decimal rendering for ints, identity for strings. -/
def Value.toStr : Value → String
  | .vInt i => toString i
  | .vStr s => s

/-- A table row: `row[i]` are condition attributes, `row[-1]` the decision. -/
abbrev Row := List Value

/-- `row[attribute_index]` (total: defaults outside the row's length, which
the Python code never exercises on the rectangular tables it is given). -/
def getCol (r : Row) (i : Nat) : Value := r.getD i default

/-- `row[-1]`, the decision column. -/
def lastCol (r : Row) : Value := r.getLastD default

/-- One step of the Python idiom `counts[value] = counts.get(value, 0) + 1`
on a dict kept as an association list in insertion order. -/
def addCount : List (Value × Nat) → Value → List (Value × Nat)
  | [], v => [(v, 1)]
  | (w, c) :: rest, v =>
    if w = v then (w, c + 1) :: rest else (w, c) :: addCount rest v

/-- The occurrence-count dict built by looping over `vs`. -/
def distOf (vs : List Value) : List (Value × Nat) := vs.foldl addCount []

/-- `calculate_entropy(counts)` from `src/main.py`:
`entropy -= p * log2 p` for each count, with `p = count / total`,
guarded by `p > 0`. -/
noncomputable def calculate_entropy (counts : List (Value × Nat)) : ℝ :=
  let total : ℕ := (counts.map (fun p => p.2)).sum
  counts.foldl
    (fun e p =>
      let q : ℝ := (p.2 : ℝ) / (total : ℝ)
      if 0 < q then e - q * Real.logb 2 q else e)
    0

/-- One step of `groups.setdefault(value, []).append(row)`: the dict of
groups is an association list in first-occurrence order, each group's
rows in table order. -/
def addToGroup : List (Value × List Row) → Value → Row → List (Value × List Row)
  | [], v, r => [(v, [r])]
  | (w, rs) :: rest, v, r =>
    if w = v then (w, rs ++ [r]) :: rest else (w, rs) :: addToGroup rest v r

/-- The grouping dict built by `calculate_attribute_info`'s first loop. -/
def groupsOf (data : List Row) (i : Nat) : List (Value × List Row) :=
  data.foldl (fun gs r => addToGroup gs (getCol r i) r) []

/-- `calculate_attribute_info(data, attribute_index)` from `src/main.py`:
groups rows by the attribute value, then accumulates
`(len(subset)/total) * entropy(decision_counts(subset))`. -/
noncomputable def calculate_attribute_info (data : List Row) (attribute_index : Nat) : ℝ :=
  let total := data.length
  (groupsOf data attribute_index).foldl
    (fun info p =>
      info + ((p.2.length : ℝ) / (total : ℝ)) *
        calculate_entropy (distOf (p.2.map lastCol)))
    0

/-- `calculate_gain(data, attribute_index, decision_entropy)`. -/
noncomputable def calculate_gain (data : List Row) (attribute_index : Nat)
    (decision_entropy : ℝ) : ℝ :=
  decision_entropy - calculate_attribute_info data attribute_index

/-- `calculate_split_info(data, attribute_index)`: entropy of the
attribute's own value distribution. -/
noncomputable def calculate_split_info (data : List Row) (attribute_index : Nat) : ℝ :=
  calculate_entropy (distOf (data.map (fun r => getCol r attribute_index)))

/-- `calculate_gain_ratio(data, attribute_index, decision_entropy)`:
`gain / split_info`, except exactly `0` when `split_info == 0`. -/
noncomputable def calculate_gain_ratio (data : List Row) (attribute_index : Nat)
    (decision_entropy : ℝ) : ℝ :=
  if calculate_split_info data attribute_index = 0 then 0
  else calculate_gain data attribute_index decision_entropy /
    calculate_split_info data attribute_index

/-- The attribute-selection loop of `build_tree` (lines 154-163):
`best_attribute = None; best_gain_ratio = -1.0;` then for each
`i in range(num_attributes)`, update both when `gr > best_gain_ratio`. -/
noncomputable def selectBest (data : List Row) (decision_entropy : ℝ)
    (num_attributes : Nat) : Option Nat × ℝ :=
  (List.range num_attributes).foldl
    (fun best i =>
      let gr := calculate_gain_ratio data i decision_entropy
      if best.2 < gr then (some i, gr) else best)
    (none, -1)

/-- `max(decision_counts, key=decision_counts.get)`: first key with the
maximal count, in dict insertion order (CPython `max` keeps the current
maximum on ties). -/
def majority : List (Value × Nat) → Value
  | [] => default
  | p :: rest => (rest.foldl (fun best q => if best.2 < q.2 then q else best) p).1

/-! ## Lemmas needed for the termination of `build_tree` -/

lemma distOf_replicate_aux (v : Value) (c : Nat) :
    ∀ n, (List.replicate n v).foldl addCount [(v, c)] = [(v, c + n)] := by
  intro n
  induction n generalizing c with
  | zero => simp
  | succ n ih =>
    rw [List.replicate_succ, List.foldl_cons]
    show (List.replicate n v).foldl addCount (addCount [(v, c)] v) = _
    have h1 : addCount [(v, c)] v = [(v, c + 1)] := by simp [addCount]
    rw [h1, ih (c + 1)]
    have h2 : c + 1 + n = c + (n + 1) := by omega
    rw [h2]

lemma distOf_replicate (v : Value) (n : Nat) (hn : n ≠ 0) :
    distOf (List.replicate n v) = [(v, n)] := by
  obtain ⟨m, rfl⟩ : ∃ m, n = m + 1 := ⟨n - 1, by omega⟩
  unfold distOf
  rw [List.replicate_succ, List.foldl_cons]
  show (List.replicate m v).foldl addCount (addCount [] v) = _
  have h1 : addCount [] v = [(v, 1)] := rfl
  rw [h1, distOf_replicate_aux v 1 m]
  simp [Nat.add_comm]

lemma calculate_entropy_single (v : Value) (n : Nat) :
    calculate_entropy [(v, n)] = 0 := by
  unfold calculate_entropy
  simp only [List.map_cons, List.map_nil, List.sum_cons, List.sum_nil,
    List.foldl_cons, List.foldl_nil]
  rcases Nat.eq_zero_or_pos n with h | h
  · subst h; norm_num
  · have hn : (n : ℝ) ≠ 0 := by positivity
    rw [add_zero, div_self hn]
    simp

/-- If the attribute is constant across the table, its split info is `0`. -/
lemma split_info_eq_zero_of_const (data : List Row) (i : Nat)
    (h : ∀ r ∈ data, ∀ s ∈ data, getCol r i = getCol s i) :
    calculate_split_info data i = 0 := by
  unfold calculate_split_info
  rcases data with _ | ⟨r0, rest⟩
  · simp [distOf, calculate_entropy]
  · have hconst : ∀ x ∈ (r0 :: rest).map (fun r => getCol r i), x = getCol r0 i := by
      intro x hx
      obtain ⟨r, hr, rfl⟩ := List.mem_map.1 hx
      exact h r hr r0 (by simp)
    rw [List.eq_replicate_of_mem hconst, distOf_replicate _ _ (by simp),
      calculate_entropy_single]

/-- A nonzero gain ratio forces a nonzero split info. -/
lemma split_info_ne_zero_of_gr_ne_zero (data : List Row) (i : Nat) (H : ℝ)
    (h : calculate_gain_ratio data i H ≠ 0) :
    calculate_split_info data i ≠ 0 := by
  intro hz
  apply h
  unfold calculate_gain_ratio
  rw [if_pos hz]

/-- The selection loop only reports a gain ratio it actually computed:
if it ends on `(some i, gr)` then `gr = calculate_gain_ratio data i H`. -/
lemma selectBest_snd_eq (data : List Row) (H : ℝ) :
    ∀ (l : List Nat) (acc : Option Nat × ℝ),
      (∀ j, acc.1 = some j → acc.2 = calculate_gain_ratio data j H) →
      ∀ j,
        (l.foldl
            (fun best i =>
              let gr := calculate_gain_ratio data i H
              if best.2 < gr then (some i, gr) else best)
            acc).1 = some j →
        (l.foldl
            (fun best i =>
              let gr := calculate_gain_ratio data i H
              if best.2 < gr then (some i, gr) else best)
            acc).2 = calculate_gain_ratio data j H := by
  intro l
  induction l with
  | nil => intro acc hacc j hj; exact hacc j hj
  | cons x xs ih =>
    intro acc hacc j
    rw [List.foldl_cons]
    apply ih
    intro k hk
    by_cases hlt : acc.2 < calculate_gain_ratio data x H
    · simp only [if_pos hlt] at hk ⊢
      cases hk
      rfl
    · simp only [if_neg hlt] at hk ⊢
      exact hacc k hk

lemma selectBest_eq_gr (data : List Row) (H : ℝ) (n : Nat) (i : Nat)
    (h : (selectBest data H n).1 = some i) :
    (selectBest data H n).2 = calculate_gain_ratio data i H := by
  unfold selectBest at h ⊢
  exact selectBest_snd_eq data H (List.range n) (none, -1) (by intro j hj; cases hj) i h

/-- The strict-decrease fact behind `build_tree`'s termination: when the
selection loop picks attribute `i` with a nonzero best gain ratio, every
value-subset of the table is strictly smaller than the table. -/
lemma subset_lt_of_selected (data : List Row) (H : ℝ) (n : Nat) (i : Nat)
    (hsel : (selectBest data H n).1 = some i)
    (hnz : (selectBest data H n).2 ≠ 0) :
    ∀ v : Value,
      (data.filter (fun r => getCol r i = v)).length < data.length := by
  intro v
  have hgr : calculate_gain_ratio data i H ≠ 0 := by
    rw [← selectBest_eq_gr data H n i hsel]; exact hnz
  have hsplit := split_info_ne_zero_of_gr_ne_zero data i H hgr
  have hpair : ∃ r ∈ data, ∃ s ∈ data, getCol r i ≠ getCol s i := by
    by_contra hc
    push_neg at hc
    exact hsplit (split_info_eq_zero_of_const data i hc)
  obtain ⟨r, hr, s, hs, hne⟩ := hpair
  rw [List.length_filter_lt_length_iff_exists]
  by_cases hrv : getCol r i = v
  · exact ⟨s, hs, by simp [hrv ▸ hne.symm]⟩
  · exact ⟨r, hr, by simp [hrv]⟩

/-! ## The tree builder and serializer -/

/-- `TreeNode` from `src/main.py` as a discriminated union: `label` set
(leaf) or `attribute` + `children` set (internal).  A child slot holds an
`Option Tree` because `build_tree` can in principle store Python `None`
there (it never does on the nonempty subsets it forms). -/
inductive Tree where
  | leaf (label : Value)
  | node (attr : Nat) (children : List (Value × Option Tree))
deriving Repr

/-- `build_tree(data)` from `src/main.py`.  `.ok none` is the Python `None`
sentinel for the empty table, `.ok (some t)` a built tree, and `.error msg`
the `TypeError` Python raises when `best_attribute` is still `None` at the
splitting step (`row[None]`), which happens when `num_attributes = 0`. -/
noncomputable def build_tree : List Row → Except String (Option Tree)
  | [] => .ok none
  | r0 :: rest =>
    if rest.all (fun r => lastCol r = lastCol r0) then
      .ok (some (.leaf (lastCol r0)))
    else
      let decision_counts := distOf ((r0 :: rest).map lastCol)
      let decision_entropy := calculate_entropy decision_counts
      let num_attributes := r0.length - 1
      let best := selectBest (r0 :: rest) decision_entropy num_attributes
      if hz : best.2 = 0 then
        .ok (some (.leaf (majority decision_counts)))
      else
        match hA : best.1 with
        | none => .error "TypeError: list indices must be integers or slices, not NoneType"
        | some best_attribute => do
          let children ←
            ((r0 :: rest).map (fun r => getCol r best_attribute)).dedup.mapM
              (fun v => do
                let child ← build_tree
                  ((r0 :: rest).filter (fun r => getCol r best_attribute = v))
                pure (v, child))
          pure (some (.node best_attribute children))
termination_by data => data.length
decreasing_by
  exact subset_lt_of_selected (r0 :: rest) decision_entropy num_attributes
    best_attribute hA hz v

/-- `"          " * indent_level`: ten spaces per depth level. -/
def indentOf (indent_level : Nat) : String :=
  String.join (List.replicate indent_level "          ")

/-- `sorted(node.children.items(), key=lambda item: str(item[0]))`:
stable sort of the child branches by the string form of their value. -/
def sortChildren (children : List (Value × Option Tree)) :
    List (Value × Option Tree) :=
  children.mergeSort (fun a b => a.1.toStr ≤ b.1.toStr)

/-- `print_tree(node, indent_level, value_prefix)` from `src/main.py`,
modelled as the list of lines it prints. -/
def print_tree : Option Tree → Nat → String → List String
  | none, indent_level, value_pfx =>
      [indentOf indent_level ++ value_pfx ++ "Brak drzewa"]
  | some (.leaf label), indent_level, value_pfx =>
      [indentOf indent_level ++ value_pfx ++ " -> D: " ++ label.toStr]
  | some (.node attr children), indent_level, value_pfx =>
      let head :=
        if indent_level = 0 then "Atrybut: " ++ toString (attr + 1)
        else indentOf indent_level ++ value_pfx ++ "->Atrybut: " ++
          toString (attr + 1)
      head :: (sortChildren children).attach.flatMap
        (fun c => print_tree c.1.2 (indent_level + 1) c.1.1.toStr)
termination_by t _ _ => sizeOf t
decreasing_by
  have hm : c.1 ∈ children := List.mem_mergeSort.1 c.2
  have h1 : sizeOf c.1 < sizeOf children := List.sizeOf_lt_of_mem hm
  obtain ⟨⟨v, t⟩, hc⟩ := c
  simp at h1 ⊢
  omega

/-! ## Characterization of the count dictionaries -/

/-- Total count associated with key `w` in an association list (sums over
duplicate keys; the lists we build have distinct keys). -/
def countIn (d : List (Value × Nat)) (w : Value) : Nat :=
  (d.map (fun p => if p.1 = w then p.2 else 0)).sum

lemma keys_addCount (d : List (Value × Nat)) (v : Value) :
    (addCount d v).map Prod.fst =
      if v ∈ d.map Prod.fst then d.map Prod.fst else d.map Prod.fst ++ [v] := by
  induction d with
  | nil => simp [addCount]
  | cons p rest ih =>
    obtain ⟨w, c⟩ := p
    by_cases hwv : w = v
    · subst hwv
      simp [addCount]
    · have hvw : ¬ v = w := fun h => hwv h.symm
      simp only [addCount, if_neg hwv, List.map_cons, ih, List.mem_cons, hvw, false_or]
      by_cases hv : v ∈ rest.map Prod.fst
      · simp [hv]
      · simp [hv]

lemma countIn_addCount (d : List (Value × Nat)) (v w : Value) :
    countIn (addCount d v) w = countIn d w + if w = v then 1 else 0 := by
  induction d with
  | nil => simp [addCount, countIn, eq_comm]
  | cons p rest ih =>
    obtain ⟨u, c⟩ := p
    simp only [countIn, addCount] at ih ⊢
    by_cases huv : u = v
    · subst huv
      by_cases hwu : w = u
      · subst hwu
        simp
        omega
      · have huw : ¬ u = w := fun h => hwu h.symm
        simp [huw, hwu]
    · simp only [if_neg huv, List.map_cons, List.sum_cons]
      rw [ih]
      omega

lemma totals_addCount (d : List (Value × Nat)) (v : Value) :
    ((addCount d v).map Prod.snd).sum = (d.map Prod.snd).sum + 1 := by
  induction d with
  | nil => simp [addCount]
  | cons p rest ih =>
    obtain ⟨u, c⟩ := p
    by_cases huv : u = v
    · subst huv; simp [addCount]; omega
    · simp [addCount, huv, ih]; omega

lemma distOf_foldl_keys_mem (vs : List Value) :
    ∀ (d : List (Value × Nat)) (w : Value),
      (w ∈ (vs.foldl addCount d).map Prod.fst ↔ w ∈ d.map Prod.fst ∨ w ∈ vs) := by
  induction vs with
  | nil => simp
  | cons v vs ih =>
    intro d w
    rw [List.foldl_cons, ih]
    rw [keys_addCount]
    by_cases hv : v ∈ d.map Prod.fst
    · simp only [if_pos hv, List.mem_cons]
      constructor
      · rintro (h | h)
        · exact Or.inl h
        · exact Or.inr (Or.inr h)
      · rintro (h | rfl | h)
        · exact Or.inl h
        · exact Or.inl hv
        · exact Or.inr h
    · simp only [if_neg hv, List.mem_append, List.mem_singleton, List.mem_cons]
      tauto

lemma distOf_foldl_keys_nodup (vs : List Value) :
    ∀ (d : List (Value × Nat)), (d.map Prod.fst).Nodup →
      ((vs.foldl addCount d).map Prod.fst).Nodup := by
  induction vs with
  | nil => intro d hd; simpa using hd
  | cons v vs ih =>
    intro d hd
    rw [List.foldl_cons]
    apply ih
    rw [keys_addCount]
    by_cases hv : v ∈ d.map Prod.fst
    · simpa [hv] using hd
    · rw [if_neg hv]
      simpa [List.nodup_append, hv] using hd

lemma countIn_distOf_foldl (vs : List Value) :
    ∀ (d : List (Value × Nat)) (w : Value),
      countIn (vs.foldl addCount d) w = countIn d w + vs.count w := by
  induction vs with
  | nil => simp
  | cons v vs ih =>
    intro d w
    rw [List.foldl_cons, ih, countIn_addCount, List.count_cons]
    simp only [beq_iff_eq]
    by_cases hwv : w = v
    · subst hwv; simp; omega
    · have hvw : ¬ v = w := fun h => hwv h.symm
      simp [hwv, hvw]

lemma totals_distOf_foldl (vs : List Value) :
    ∀ (d : List (Value × Nat)),
      (((vs.foldl addCount d).map Prod.snd)).sum = (d.map Prod.snd).sum + vs.length := by
  induction vs with
  | nil => simp
  | cons v vs ih =>
    intro d
    rw [List.foldl_cons, ih, totals_addCount]
    simp only [List.length_cons]
    omega

lemma keys_distOf_nodup (vs : List Value) : ((distOf vs).map Prod.fst).Nodup :=
  distOf_foldl_keys_nodup vs [] (by simp)

lemma mem_keys_distOf (vs : List Value) (w : Value) :
    w ∈ (distOf vs).map Prod.fst ↔ w ∈ vs := by
  rw [distOf, distOf_foldl_keys_mem]
  simp

lemma countIn_distOf (vs : List Value) (w : Value) :
    countIn (distOf vs) w = vs.count w := by
  rw [distOf, countIn_distOf_foldl]
  simp [countIn]

lemma totals_distOf (vs : List Value) :
    ((distOf vs).map Prod.snd).sum = vs.length := by
  rw [distOf, totals_distOf_foldl]
  simp

lemma countIn_eq_of_mem :
    ∀ (d : List (Value × Nat)), (d.map Prod.fst).Nodup →
      ∀ p ∈ d, countIn d p.1 = p.2 := by
  intro d
  induction d with
  | nil => simp
  | cons q rest ih =>
    intro hnd p hp
    simp only [List.map_cons, List.nodup_cons] at hnd
    rcases List.mem_cons.1 hp with rfl | hp'
    · have hz : countIn rest p.1 = 0 := by
        unfold countIn
        apply List.sum_eq_zero
        intro x hx
        obtain ⟨r, hr, rfl⟩ := List.mem_map.1 hx
        have : r.1 ≠ p.1 := by
          intro he
          exact hnd.1 (he ▸ List.mem_map_of_mem Prod.fst hr)
        simp [this]
      simp [countIn] at hz ⊢
      simpa [hz] using Or.inl rfl
    · have hne : q.1 ≠ p.1 := by
        intro he
        exact hnd.1 (he ▸ List.mem_map_of_mem Prod.fst hp')
      have := ih hnd.2 p hp'
      simp only [countIn, List.map_cons, List.sum_cons, if_neg hne] at this ⊢
      simpa using this

/-- Every entry of `distOf vs` records the exact occurrence count of its key. -/
lemma snd_eq_count_of_mem_distOf (vs : List Value) (p : Value × Nat)
    (hp : p ∈ distOf vs) : p.2 = vs.count p.1 := by
  rw [← countIn_distOf]
  exact (countIn_eq_of_mem _ (keys_distOf_nodup vs) p hp).symm

/-! ## Entropy as a sum over classes -/

/-- The contribution of one count `c` out of `T` to a base-2 entropy,
written via `Real.negMulLog`: for `q = c/T > 0` it equals `-q·log₂ q`,
and it vanishes at `q = 0`. -/
noncomputable def entTerm (T c : Nat) : ℝ :=
  (Real.log 2)⁻¹ * Real.negMulLog ((c : ℝ) / (T : ℝ))

lemma entTerm_step (T c : Nat) (e : ℝ) :
    (if 0 < ((c : ℝ) / (T : ℝ)) then
        e - ((c : ℝ) / (T : ℝ)) * Real.logb 2 ((c : ℝ) / (T : ℝ)) else e)
      = e + entTerm T c := by
  set q : ℝ := (c : ℝ) / (T : ℝ) with hq
  have hq0 : 0 ≤ q := by positivity
  rcases hq0.lt_or_eq with hpos | hzero
  · rw [if_pos hpos]
    unfold entTerm
    rw [← hq]
    simp only [Real.logb, Real.negMulLog]
    ring
  · rw [if_neg (by rw [← hzero]; exact lt_irrefl 0)]
    unfold entTerm
    rw [← hq, ← hzero]
    simp

lemma entropy_foldl (T : Nat) :
    ∀ (l : List (Value × Nat)) (e : ℝ),
      l.foldl
        (fun e p =>
          let q : ℝ := (p.2 : ℝ) / (T : ℝ)
          if 0 < q then e - q * Real.logb 2 q else e) e
      = e + (l.map (fun p => entTerm T p.2)).sum := by
  intro l
  induction l with
  | nil => simp
  | cons p l ih =>
    intro e
    rw [List.foldl_cons]
    show l.foldl _ (if 0 < ((p.2 : ℝ) / (T : ℝ)) then _ else e) = _
    rw [entTerm_step T p.2 e, ih]
    simp [add_assoc]

lemma calculate_entropy_eq_sum (counts : List (Value × Nat)) :
    calculate_entropy counts =
      (counts.map (fun p => entTerm ((counts.map Prod.snd).sum) p.2)).sum := by
  unfold calculate_entropy
  rw [entropy_foldl ((counts.map (fun p => p.2)).sum) counts 0, zero_add]

/-- The source's entropy of an occurrence dict, as a finite sum over the
distinct values, with exact counts. -/
lemma calculate_entropy_distOf (vs : List Value) :
    calculate_entropy (distOf vs) =
      ∑ c ∈ vs.toFinset, entTerm vs.length (vs.count c) := by
  rw [calculate_entropy_eq_sum, totals_distOf]
  have h1 : (distOf vs).map (fun p => entTerm vs.length p.2)
      = (distOf vs).map (fun p => entTerm vs.length (vs.count p.1)) :=
    List.map_congr_left (fun p hp => by rw [snd_eq_count_of_mem_distOf vs p hp])
  have h2 : (distOf vs).map (fun p => entTerm vs.length (vs.count p.1))
      = ((distOf vs).map Prod.fst).map (fun c => entTerm vs.length (vs.count c)) := by
    rw [List.map_map]
    rfl
  have h3 : ((distOf vs).map Prod.fst).toFinset = vs.toFinset := by
    ext c
    rw [List.mem_toFinset, List.mem_toFinset, mem_keys_distOf]
  rw [h1, h2, ← List.sum_toFinset _ (keys_distOf_nodup vs), h3]

lemma entTerm_nonneg (T c : Nat) (hc : c ≤ T) : 0 ≤ entTerm T c := by
  unfold entTerm
  apply mul_nonneg
  · simp only [inv_nonneg]
    exact Real.log_nonneg (by norm_num)
  · rcases Nat.eq_zero_or_pos T with hT | hT
    · subst hT
      have : c = 0 := by omega
      subst this
      simp
    · apply Real.negMulLog_nonneg (by positivity)
      rw [div_le_one (by exact_mod_cast hT)]
      exact_mod_cast hc

lemma calculate_entropy_distOf_nonneg (vs : List Value) :
    0 ≤ calculate_entropy (distOf vs) := by
  rw [calculate_entropy_distOf]
  exact Finset.sum_nonneg fun c _ => entTerm_nonneg _ _ (List.count_le_length c vs)

/-! ## The grouping loop partitions the table -/

lemma foldl_add_sum {α : Type} (f : α → ℝ) :
    ∀ (l : List α) (e : ℝ),
      l.foldl (fun acc p => acc + f p) e = e + (l.map f).sum := by
  intro l
  induction l with
  | nil => simp
  | cons p l ih =>
    intro e
    rw [List.foldl_cons, ih]
    simp [add_assoc]

lemma calculate_attribute_info_eq_sum (data : List Row) (i : Nat) :
    calculate_attribute_info data i =
      ((groupsOf data i).map (fun p =>
        ((p.2.length : ℝ) / (data.length : ℝ)) *
          calculate_entropy (distOf (p.2.map lastCol)))).sum := by
  have h := foldl_add_sum
    (fun p : Value × List Row => ((p.2.length : ℝ) / (data.length : ℝ)) *
      calculate_entropy (distOf (p.2.map lastCol)))
    (groupsOf data i) 0
  rw [zero_add] at h
  exact h

lemma flatten_addToGroup (gs : List (Value × List Row)) (v : Value) (r : Row) :
    ((addToGroup gs v r).map Prod.snd).flatten.Perm
      ((gs.map Prod.snd).flatten ++ [r]) := by
  induction gs with
  | nil => simp [addToGroup]
  | cons p rest ih =>
    obtain ⟨w, rs⟩ := p
    by_cases hwv : w = v
    · simp only [addToGroup, if_pos hwv, List.map_cons, List.flatten_cons]
      rw [List.append_assoc, List.append_assoc]
      exact List.Perm.append_left rs List.perm_append_comm
    · simp only [addToGroup, if_neg hwv, List.map_cons, List.flatten_cons]
      rw [List.append_assoc]
      exact List.Perm.append_left rs ih

lemma groupsOf_flatten_perm (data : List Row) (i : Nat) :
    ((groupsOf data i).map Prod.snd).flatten.Perm data := by
  suffices h : ∀ (l : List Row) (gs : List (Value × List Row)),
      ((l.foldl (fun gs r => addToGroup gs (getCol r i) r) gs).map Prod.snd).flatten.Perm
        ((gs.map Prod.snd).flatten ++ l) by
    simpa using h data []
  intro l
  induction l with
  | nil => simp
  | cons r l ih =>
    intro gs
    rw [List.foldl_cons]
    refine (ih _).trans ?_
    have h1 := (flatten_addToGroup gs (getCol r i) r).append_right l
    refine h1.trans ?_
    rw [List.append_assoc]
    simp

lemma addToGroup_snd_ne_nil (gs : List (Value × List Row)) (v : Value) (r : Row)
    (h : ∀ p ∈ gs, p.2 ≠ []) : ∀ p ∈ addToGroup gs v r, p.2 ≠ [] := by
  induction gs with
  | nil =>
    intro p hp
    simp only [addToGroup, List.mem_singleton] at hp
    subst hp
    simp
  | cons q rest ih =>
    obtain ⟨w, rs⟩ := q
    intro p hp
    by_cases hwv : w = v
    · simp only [addToGroup, if_pos hwv, List.mem_cons] at hp
      rcases hp with rfl | hp'
      · simp
      · exact h p (List.mem_cons_of_mem _ hp')
    · simp only [addToGroup, if_neg hwv, List.mem_cons] at hp
      rcases hp with rfl | hp'
      · exact h _ (List.mem_cons_self _ _)
      · exact ih (fun q hq => h q (List.mem_cons_of_mem _ hq)) p hp'

lemma groupsOf_snd_ne_nil (data : List Row) (i : Nat) :
    ∀ p ∈ groupsOf data i, p.2 ≠ [] := by
  suffices h : ∀ (l : List Row) (gs : List (Value × List Row)),
      (∀ p ∈ gs, p.2 ≠ []) →
      ∀ p ∈ l.foldl (fun gs r => addToGroup gs (getCol r i) r) gs, p.2 ≠ [] by
    exact h data [] (by simp)
  intro l
  induction l with
  | nil => intro gs h; simpa using h
  | cons r l ih =>
    intro gs h
    rw [List.foldl_cons]
    exact ih _ (addToGroup_snd_ne_nil gs (getCol r i) r h)

lemma mem_of_mem_group (data : List Row) (i : Nat) (p : Value × List Row)
    (hp : p ∈ groupsOf data i) (r : Row) (hr : r ∈ p.2) : r ∈ data :=
  (groupsOf_flatten_perm data i).subset
    (List.mem_flatten.2 ⟨p.2, List.mem_map_of_mem Prod.snd hp, hr⟩)

/-! ## Gain is nonnegative (Jensen's inequality) -/

lemma entTerm_zero (T : Nat) : entTerm T 0 = 0 := by
  unfold entTerm
  simp

lemma list_sum_eq_range {α : Type} {M : Type} [AddCommMonoid M]
    (l : List α) (f : α → M) (d : α) :
    (l.map f).sum = ∑ j ∈ Finset.range l.length, f (l.getD j d) := by
  induction l with
  | nil => simp
  | cons a l ih =>
    rw [List.map_cons, List.sum_cons, List.length_cons, Finset.sum_range_succ']
    simp only [List.getD_cons_succ, List.getD_cons_zero]
    rw [ih, add_comm]

lemma groupsOf_length_sum (data : List Row) (i : Nat) :
    ∑ j ∈ Finset.range (groupsOf data i).length,
        ((groupsOf data i).getD j (default, [])).2.length = data.length := by
  rw [← list_sum_eq_range (groupsOf data i) (fun p => p.2.length) (default, [])]
  have h1 : ((groupsOf data i).map (fun p => p.2.length)).sum
      = (((groupsOf data i).map Prod.snd).map List.length).sum := by
    rw [List.map_map]
    rfl
  rw [h1, ← List.length_flatten]
  exact (groupsOf_flatten_perm data i).length_eq

lemma groupsOf_count_sum (data : List Row) (i : Nat) (c : Value) :
    ∑ j ∈ Finset.range (groupsOf data i).length,
        (((groupsOf data i).getD j (default, [])).2.map lastCol).count c
      = (data.map lastCol).count c := by
  rw [← list_sum_eq_range (groupsOf data i)
    (fun p => (p.2.map lastCol).count c) (default, [])]
  have h1 : ((groupsOf data i).map (fun p => (p.2.map lastCol).count c)).sum
      = ((((groupsOf data i).map Prod.snd).map (List.map lastCol)).map
          (List.count c)).sum := by
    rw [List.map_map, List.map_map]
    rfl
  rw [h1, ← List.count_flatten, ← List.map_flatten]
  exact ((groupsOf_flatten_perm data i).map lastCol).count_eq c

/-- The entropy of a group's decision distribution, extended to a sum over
all decision classes of the whole table (classes absent from the group
contribute `0`). -/
lemma group_entropy_ext (data : List Row) (i : Nat) (j : Nat)
    (hj : j < (groupsOf data i).length) :
    calculate_entropy (distOf (((groupsOf data i).getD j (default, [])).2.map lastCol))
      = ∑ c ∈ (data.map lastCol).toFinset,
          entTerm ((groupsOf data i).getD j (default, [])).2.length
            ((((groupsOf data i).getD j (default, [])).2.map lastCol).count c) := by
  set p := (groupsOf data i).getD j (default, []) with hp
  have hpmem : p ∈ groupsOf data i := by
    rw [hp, List.getD_eq_getElem _ _ hj]
    exact List.getElem_mem hj
  rw [calculate_entropy_distOf, List.length_map]
  apply Finset.sum_subset
  · intro c hc
    rw [List.mem_toFinset] at hc ⊢
    obtain ⟨r, hr, rfl⟩ := List.mem_map.1 hc
    exact List.mem_map_of_mem lastCol (mem_of_mem_group data i p hpmem r hr)
  · intro c _ hc
    rw [List.mem_toFinset] at hc
    rw [List.count_eq_zero.2 hc, entTerm_zero]

/-- Jensen's inequality for the induction step: the expected remaining
uncertainty after splitting on any attribute is at most the decision
entropy of the whole (nonempty) table. -/
lemma attribute_info_le_entropy (data : List Row) (i : Nat) (hne : data ≠ []) :
    calculate_attribute_info data i ≤
      calculate_entropy (distOf (data.map lastCol)) := by
  have hN : 0 < data.length := List.length_pos.2 hne
  have hNR : (0 : ℝ) < (data.length : ℝ) := by exact_mod_cast hN
  set gl := groupsOf data i with hgl
  set m := gl.length with hm
  set dflt : Value × List Row := (default, []) with hdflt
  set CF := (data.map lastCol).toFinset with hCF
  -- the concave function behind `entTerm`
  set φ : ℝ → ℝ := fun x => (Real.log 2)⁻¹ • Real.negMulLog x with hφdef
  have hlog2 : (0 : ℝ) ≤ (Real.log 2)⁻¹ := by
    simp only [inv_nonneg]
    exact Real.log_nonneg (by norm_num)
  have hφ : ConcaveOn ℝ (Set.Ici 0) φ :=
    ConcaveOn.smul hlog2 Real.concaveOn_negMulLog
  have hφent : ∀ (T c : Nat), φ ((c : ℝ) / (T : ℝ)) = entTerm T c := by
    intro T c
    simp [hφdef, entTerm, smul_eq_mul]
  -- rewrite both sides as double sums over (class, group)
  rw [calculate_attribute_info_eq_sum, calculate_entropy_distOf, List.length_map]
  rw [list_sum_eq_range gl _ dflt]
  have hleft :
      ∑ j ∈ Finset.range m,
          (((gl.getD j dflt).2.length : ℝ) / (data.length : ℝ)) *
            calculate_entropy (distOf ((gl.getD j dflt).2.map lastCol))
        = ∑ c ∈ CF, ∑ j ∈ Finset.range m,
            (((gl.getD j dflt).2.length : ℝ) / (data.length : ℝ)) *
              entTerm (gl.getD j dflt).2.length
                (((gl.getD j dflt).2.map lastCol).count c) := by
    rw [Finset.sum_comm]
    apply Finset.sum_congr rfl
    intro j hj
    rw [group_entropy_ext data i j (Finset.mem_range.1 hj), Finset.mul_sum]
  rw [hleft]
  apply Finset.sum_le_sum
  intro c _
  -- per-class Jensen step
  have hgrp : ∀ j ∈ Finset.range m, (gl.getD j dflt) ∈ gl := by
    intro j hj
    rw [List.getD_eq_getElem _ _ (Finset.mem_range.1 hj)]
    exact List.getElem_mem (Finset.mem_range.1 hj)
  have hlen_pos : ∀ j ∈ Finset.range m, 0 < (gl.getD j dflt).2.length := by
    intro j hj
    exact List.length_pos.2 (groupsOf_snd_ne_nil data i _ (hgrp j hj))
  have h₀ : ∀ j ∈ Finset.range m,
      (0 : ℝ) ≤ ((gl.getD j dflt).2.length : ℝ) / (data.length : ℝ) := by
    intro j _
    positivity
  have h₁ : ∑ j ∈ Finset.range m,
      ((gl.getD j dflt).2.length : ℝ) / (data.length : ℝ) = 1 := by
    rw [← Finset.sum_div]
    rw [div_eq_one_iff_eq (by positivity)]
    exact_mod_cast groupsOf_length_sum data i
  have hmem : ∀ j ∈ Finset.range m,
      ((((gl.getD j dflt).2.map lastCol).count c : ℝ) /
        ((gl.getD j dflt).2.length : ℝ)) ∈ Set.Ici (0 : ℝ) := by
    intro j _
    simp only [Set.mem_Ici]
    positivity
  have hjen := hφ.le_map_sum h₀ h₁ hmem
  have hlhs : ∑ j ∈ Finset.range m,
      (((gl.getD j dflt).2.length : ℝ) / (data.length : ℝ)) •
        φ ((((gl.getD j dflt).2.map lastCol).count c : ℝ) /
          ((gl.getD j dflt).2.length : ℝ))
      = ∑ j ∈ Finset.range m,
          (((gl.getD j dflt).2.length : ℝ) / (data.length : ℝ)) *
            entTerm (gl.getD j dflt).2.length
              (((gl.getD j dflt).2.map lastCol).count c) := by
    apply Finset.sum_congr rfl
    intro j _
    rw [smul_eq_mul, hφent]
  have hrhs : ∑ j ∈ Finset.range m,
      (((gl.getD j dflt).2.length : ℝ) / (data.length : ℝ)) •
        ((((gl.getD j dflt).2.map lastCol).count c : ℝ) /
          ((gl.getD j dflt).2.length : ℝ))
      = ((data.map lastCol).count c : ℝ) / (data.length : ℝ) := by
    have hterm : ∀ j ∈ Finset.range m,
        (((gl.getD j dflt).2.length : ℝ) / (data.length : ℝ)) •
          ((((gl.getD j dflt).2.map lastCol).count c : ℝ) /
            ((gl.getD j dflt).2.length : ℝ))
        = ((((gl.getD j dflt).2.map lastCol).count c : ℝ)) / (data.length : ℝ) := by
      intro j hj
      have hL : ((gl.getD j dflt).2.length : ℝ) ≠ 0 := by
        have := hlen_pos j hj
        positivity
      rw [smul_eq_mul, div_mul_div_comm,
        mul_comm ((data.length : ℝ)) (((gl.getD j dflt).2.length : ℝ)),
        mul_div_mul_left _ _ hL]
    rw [Finset.sum_congr rfl hterm, ← Finset.sum_div]
    congr 1
    exact_mod_cast groupsOf_count_sum data i c
  rw [hlhs, hrhs] at hjen
  calc ∑ j ∈ Finset.range m,
        (((gl.getD j dflt).2.length : ℝ) / (data.length : ℝ)) *
          entTerm (gl.getD j dflt).2.length
            (((gl.getD j dflt).2.map lastCol).count c)
      ≤ φ (((data.map lastCol).count c : ℝ) / (data.length : ℝ)) := hjen
    _ = entTerm data.length ((data.map lastCol).count c) := hφent _ _

/-- `Gain(X, T) ≥ 0` in exact arithmetic, when the gain is computed against
the entropy of the table's own decision distribution (as `build_tree` does). -/
lemma gain_nonneg (data : List Row) (i : Nat) (hne : data ≠ []) :
    0 ≤ calculate_gain data i (calculate_entropy (distOf (data.map lastCol))) := by
  unfold calculate_gain
  have := attribute_info_le_entropy data i hne
  linarith

/-- The gain ratio computed by `build_tree` is never negative. -/
lemma gain_ratio_nonneg (data : List Row) (i : Nat) (hne : data ≠ []) :
    0 ≤ calculate_gain_ratio data i
      (calculate_entropy (distOf (data.map lastCol))) := by
  unfold calculate_gain_ratio
  by_cases hs : calculate_split_info data i = 0
  · rw [if_pos hs]
  · rw [if_neg hs]
    apply div_nonneg (gain_nonneg data i hne)
    have h0 : 0 ≤ calculate_split_info data i := calculate_entropy_distOf_nonneg _
    exact h0

/-! ## The selection loop is a stable left-to-right argmax -/

/-- When every candidate's gain ratio beats the `-1.0` sentinel (always
true here, gain ratios being nonnegative), the scan of `range n` keeps the
first index attaining the running maximum: later equal values never win. -/
lemma selectBest_argmax (data : List Row) (H : ℝ) (n : Nat) (hn : 1 ≤ n)
    (hpos : ∀ j, j < n → -1 < calculate_gain_ratio data j H) :
    ∃ i0, selectBest data H n = (some i0, calculate_gain_ratio data i0 H) ∧
      i0 < n ∧
      (∀ j, j < n → calculate_gain_ratio data j H ≤ calculate_gain_ratio data i0 H) ∧
      (∀ j, j < i0 → calculate_gain_ratio data j H < calculate_gain_ratio data i0 H) := by
  induction n with
  | zero => omega
  | succ n ih =>
    rcases Nat.eq_zero_or_pos n with rfl | hn'
    · refine ⟨0, ?_, by omega, ?_, by omega⟩
      · unfold selectBest
        rw [List.range_succ, List.range_zero, List.nil_append,
          List.foldl_cons, List.foldl_nil]
        rw [if_pos (show (-1 : ℝ) < calculate_gain_ratio data 0 H from hpos 0 (by omega))]
      · intro j hj
        have : j = 0 := by omega
        subst this
        exact le_refl _
    · obtain ⟨i0, heq, hi0, hmax, hfirst⟩ := ih hn' (fun j hj => hpos j (by omega))
      unfold selectBest at heq ⊢
      rw [List.range_succ, List.foldl_append, heq, List.foldl_cons, List.foldl_nil]
      by_cases hlt :
          calculate_gain_ratio data i0 H < calculate_gain_ratio data n H
      · rw [if_pos hlt]
        refine ⟨n, rfl, by omega, ?_, ?_⟩
        · intro j hj
          rcases Nat.lt_succ_iff_lt_or_eq.1 hj with hj' | rfl
          · exact le_of_lt (lt_of_le_of_lt (hmax j hj') hlt)
          · exact le_refl _
        · intro j hj
          exact lt_of_le_of_lt (hmax j hj) hlt
      · rw [if_neg hlt]
        refine ⟨i0, rfl, by omega, ?_, hfirst⟩
        intro j hj
        rcases Nat.lt_succ_iff_lt_or_eq.1 hj with hj' | rfl
        · exact hmax j hj'
        · exact not_lt.1 hlt

/-! ## The majority vote picks a maximal count -/

lemma majority_foldl_spec (rest : List (Value × Nat)) :
    ∀ p : Value × Nat,
      (rest.foldl (fun best q => if best.2 < q.2 then q else best) p) ∈ p :: rest ∧
      p.2 ≤ (rest.foldl (fun best q => if best.2 < q.2 then q else best) p).2 ∧
      ∀ q ∈ rest, q.2 ≤ (rest.foldl (fun best q => if best.2 < q.2 then q else best) p).2 := by
  induction rest with
  | nil =>
    intro p
    exact ⟨List.mem_cons_self _ _, le_refl _, by simp⟩
  | cons q rest ih =>
    intro p
    rw [List.foldl_cons]
    obtain ⟨hmem, hle, hall⟩ := ih (if p.2 < q.2 then q else p)
    refine ⟨?_, ?_, ?_⟩
    · rcases List.mem_cons.1 hmem with heq | hmem'
      · rw [heq]
        by_cases hpq : p.2 < q.2
        · rw [if_pos hpq]; exact List.mem_cons_of_mem _ (List.mem_cons_self _ _)
        · rw [if_neg hpq]; exact List.mem_cons_self _ _
      · exact List.mem_cons_of_mem _ (List.mem_cons_of_mem _ hmem')
    · refine le_trans ?_ hle
      by_cases hpq : p.2 < q.2
      · rw [if_pos hpq]; exact le_of_lt hpq
      · rw [if_neg hpq]
    · intro x hx
      rcases List.mem_cons.1 hx with rfl | hx'
      · refine le_trans ?_ hle
        by_cases hpq : p.2 < x.2
        · rw [if_pos hpq]
        · rw [if_neg hpq]; exact not_lt.1 hpq
      · exact hall x hx'

lemma distOf_ne_nil (vs : List Value) (h : vs ≠ []) : distOf vs ≠ [] := by
  intro hd
  obtain ⟨v, l, rfl⟩ := List.exists_cons_of_ne_nil h
  have hv : v ∈ (distOf (v :: l)).map Prod.fst := (mem_keys_distOf _ v).2 (by simp)
  rw [hd] at hv
  simp at hv

/-- The label returned by the majority vote has the maximal occurrence
count among all decision values of the list. -/
lemma majority_count_max (vs : List Value) (hvs : vs ≠ []) :
    ∀ w, vs.count w ≤ vs.count (majority (distOf vs)) := by
  obtain ⟨p, rest, hd⟩ := List.exists_cons_of_ne_nil (distOf_ne_nil vs hvs)
  intro w
  obtain ⟨hmem, hple, hall⟩ := majority_foldl_spec rest p
  set res := rest.foldl (fun best q => if best.2 < q.2 then q else best) p with hres
  have hresmem : res ∈ distOf vs := by rw [hd]; exact hmem
  have hresct : res.2 = vs.count res.1 := snd_eq_count_of_mem_distOf vs res hresmem
  have hmaj : majority (distOf vs) = res.1 := by rw [hd]; rfl
  rw [hmaj, ← hresct]
  by_cases hw : w ∈ vs
  · have hwk : w ∈ (distOf vs).map Prod.fst := (mem_keys_distOf vs w).2 hw
    obtain ⟨q, hq, hq1⟩ := List.mem_map.1 hwk
    have hqct : q.2 = vs.count q.1 := snd_eq_count_of_mem_distOf vs q hq
    rw [← hq1, ← hqct]
    rw [hd] at hq
    rcases List.mem_cons.1 hq with rfl | hq'
    · exact hple
    · exact hall q hq'
  · rw [List.count_eq_zero.2 hw]
    exact Nat.zero_le _

/-! ## Unfolding the branches of `build_tree` -/

lemma build_tree_cons_allsame (r0 : Row) (rest : List Row)
    (h : ∀ r ∈ rest, lastCol r = lastCol r0) :
    build_tree (r0 :: rest) = .ok (some (.leaf (lastCol r0))) := by
  rw [build_tree.eq_def]
  have hb : (rest.all fun r => decide (lastCol r = lastCol r0)) = true := by
    rw [List.all_eq_true]
    intro x hx
    exact decide_eq_true (h x hx)
  simp only [hb, if_true]

lemma build_tree_cons_majority (r0 : Row) (rest : List Row)
    (hns : ¬ ∀ r ∈ rest, lastCol r = lastCol r0)
    (hz : (selectBest (r0 :: rest)
        (calculate_entropy (distOf ((r0 :: rest).map lastCol)))
        (r0.length - 1)).2 = 0) :
    build_tree (r0 :: rest) =
      .ok (some (.leaf (majority (distOf ((r0 :: rest).map lastCol))))) := by
  rw [build_tree.eq_def]
  have hb : ¬ ((rest.all fun r => decide (lastCol r = lastCol r0)) = true) := by
    rw [List.all_eq_true]
    intro hx
    exact hns fun r hr => of_decide_eq_true (hx r hr)
  simp only [hb]
  rw [if_neg (by simp), dif_pos hz]

lemma build_tree_cons_node (r0 : Row) (rest : List Row) (i0 : Nat) (g : ℝ)
    (hns : ¬ ∀ r ∈ rest, lastCol r = lastCol r0)
    (hsel : selectBest (r0 :: rest)
        (calculate_entropy (distOf ((r0 :: rest).map lastCol)))
        (r0.length - 1) = (some i0, g))
    (hg : g ≠ 0) :
    build_tree (r0 :: rest) =
      (do
        let children ←
          ((r0 :: rest).map (fun r => getCol r i0)).dedup.mapM
            (fun v => do
              let child ← build_tree
                ((r0 :: rest).filter (fun r => getCol r i0 = v))
              pure (v, child))
        pure (some (Tree.node i0 children)) : Except String (Option Tree)) := by
  rw [build_tree.eq_def]
  have hb : ¬ ((rest.all fun r => decide (lastCol r = lastCol r0)) = true) := by
    rw [List.all_eq_true]
    intro hx
    exact hns fun r hr => of_decide_eq_true (hx r hr)
  simp only [hb, hsel]
  rw [if_neg (by simp), dif_neg hg]
  split
  · next hA =>
    rw [hsel] at hA
    simp at hA
  · next b hA =>
    rw [hsel] at hA
    simp only [Option.some.injEq] at hA
    subst hA
    rfl

lemma mapM_ok_of_forall {β : Type} (f : Value → Except String β) :
    ∀ l : List Value, (∀ v ∈ l, ∃ y, f v = .ok y) →
      ∃ ys : List β, l.mapM f = .ok ys := by
  intro l
  induction l with
  | nil => exact fun _ => ⟨[], rfl⟩
  | cons a l ih =>
    intro h
    obtain ⟨y, hy⟩ := h a (by simp)
    obtain ⟨ys, hys⟩ := ih fun v hv => h v (by simp [hv])
    refine ⟨y :: ys, ?_⟩
    rw [List.mapM_cons, hy, hys]
    rfl

/-- Totality of the builder on nonempty rectangular tables with at least
one condition attribute: it always returns `.ok (some _)`. -/
lemma build_tree_total : ∀ (N : Nat) (r0 : Row) (rest : List Row),
    (r0 :: rest).length ≤ N →
    (∀ r ∈ r0 :: rest, r.length = r0.length) → 2 ≤ r0.length →
    ∃ t : Tree, build_tree (r0 :: rest) = .ok (some t) := by
  intro N
  induction N with
  | zero =>
    intro r0 rest h
    simp at h
  | succ N ih =>
    intro r0 rest hlen hrect hk
    by_cases hall : ∀ r ∈ rest, lastCol r = lastCol r0
    · exact ⟨_, build_tree_cons_allsame r0 rest hall⟩
    · set H := calculate_entropy (distOf ((r0 :: rest).map lastCol)) with hH
      set n := r0.length - 1 with hn
      have hn1 : 1 ≤ n := by omega
      have hpos : ∀ j, j < n → -1 < calculate_gain_ratio (r0 :: rest) j H := by
        intro j _
        have h0 := gain_ratio_nonneg (r0 :: rest) j (by simp)
        rw [← hH] at h0
        linarith
      obtain ⟨i0, hsel, hi0, hmax, hfirst⟩ :=
        selectBest_argmax (r0 :: rest) H n hn1 hpos
      by_cases hz : (selectBest (r0 :: rest) H n).2 = 0
      · exact ⟨_, build_tree_cons_majority r0 rest hall hz⟩
      · have hg : calculate_gain_ratio (r0 :: rest) i0 H ≠ 0 := by
          intro h0
          exact hz (by rw [hsel, h0])
        have hchildren : ∀ v ∈ ((r0 :: rest).map (fun r => getCol r i0)).dedup,
            ∃ y, (do
              let child ← build_tree
                ((r0 :: rest).filter (fun r => getCol r i0 = v))
              pure (v, child) : Except String (Value × Option Tree)) = .ok y := by
          intro v hv
          obtain ⟨r, hr, hrv⟩ :=
            List.mem_map.1 (List.mem_dedup.1 hv)
          set subset := (r0 :: rest).filter (fun r => getCol r i0 = v) with hsub
          have hrsub : r ∈ subset := by
            rw [hsub, List.mem_filter]
            exact ⟨hr, decide_eq_true hrv⟩
          have hsubne : subset ≠ [] := fun h0 => by
            rw [h0] at hrsub
            simp at hrsub
          obtain ⟨r0', rest', hdec⟩ := List.exists_cons_of_ne_nil hsubne
          have hsubsub : ∀ s ∈ subset, s ∈ r0 :: rest := by
            intro s hs
            rw [hsub] at hs
            exact List.mem_of_mem_filter hs
          have hrect' : ∀ s ∈ r0' :: rest', s.length = r0'.length := by
            intro s hs
            rw [← hdec] at hs
            have h1 := hrect s (hsubsub s hs)
            have h2 := hrect r0' (hsubsub r0' (by rw [hdec]; simp))
            rw [h1, h2]
          have hk' : 2 ≤ r0'.length := by
            have h2 := hrect r0' (hsubsub r0' (by rw [hdec]; simp))
            omega
          have hdecr : subset.length < (r0 :: rest).length := by
            rw [hsub]
            exact subset_lt_of_selected (r0 :: rest) H n i0
              (by rw [hsel]) (by rw [hsel]; exact hg) v
          have hlen' : (r0' :: rest').length ≤ N := by
            rw [← hdec]
            have := List.length_cons r0 rest ▸ hlen
            omega
          obtain ⟨t, ht⟩ := ih r0' rest' hlen' hrect' hk'
          refine ⟨(v, some t), ?_⟩
          rw [hdec] at *
          rw [ht]
          rfl
        obtain ⟨ys, hys⟩ := mapM_ok_of_forall _ _ hchildren
        refine ⟨Tree.node i0 ys, ?_⟩
        rw [build_tree_cons_node r0 rest i0 _ hall hsel hg]
        rw [hys]
        rfl

/-! ## The groups are exactly the value-filtered row subsets -/

/-- First-match lookup in the association list of groups (Python dict
access), defaulting to the empty group. -/
def lookupG (gs : List (Value × List Row)) (v : Value) : List Row :=
  ((gs.find? (fun p => p.1 = v)).map Prod.snd).getD []

lemma lookupG_nil (v : Value) : lookupG [] v = [] := rfl

lemma addToGroup_cons_pos (u : Value) (rs : List Row)
    (rest : List (Value × List Row)) (r : Row) :
    addToGroup ((u, rs) :: rest) u r = (u, rs ++ [r]) :: rest := by
  simp [addToGroup]

lemma addToGroup_cons_neg (u : Value) (rs : List Row)
    (rest : List (Value × List Row)) (v : Value) (r : Row) (h : u ≠ v) :
    addToGroup ((u, rs) :: rest) v r = (u, rs) :: addToGroup rest v r := by
  simp [addToGroup, h]

lemma lookupG_cons_pos (u : Value) (rs : List Row)
    (rest : List (Value × List Row)) : lookupG ((u, rs) :: rest) u = rs := by
  unfold lookupG
  rw [List.find?_cons_of_pos _ (by simp)]
  rfl

lemma lookupG_cons_neg (u : Value) (rs : List Row)
    (rest : List (Value × List Row)) (w : Value) (h : u ≠ w) :
    lookupG ((u, rs) :: rest) w = lookupG rest w := by
  unfold lookupG
  rw [List.find?_cons_of_neg _ (by simp [h])]

lemma lookupG_addToGroup (gs : List (Value × List Row)) (v w : Value) (r : Row) :
    lookupG (addToGroup gs v r) w =
      if w = v then lookupG gs w ++ [r] else lookupG gs w := by
  induction gs with
  | nil =>
    by_cases hwv : w = v
    · subst hwv
      rw [show addToGroup [] w r = [(w, [r])] from rfl, lookupG_cons_pos,
        lookupG_nil, if_pos rfl]
      simp
    · have hvw : v ≠ w := fun h => hwv h.symm
      rw [show addToGroup [] v r = [(v, [r])] from rfl,
        lookupG_cons_neg _ _ _ _ hvw, lookupG_nil, if_neg hwv]
  | cons q rest ih =>
    obtain ⟨u, rs⟩ := q
    by_cases huv : u = v
    · subst huv
      rw [addToGroup_cons_pos]
      by_cases huw : u = w
      · subst huw
        rw [lookupG_cons_pos, lookupG_cons_pos, if_pos rfl]
      · rw [lookupG_cons_neg _ _ _ _ huw, lookupG_cons_neg _ _ _ _ huw,
          if_neg (fun h => huw h.symm)]
    · rw [addToGroup_cons_neg _ _ _ _ _ huv]
      by_cases huw : u = w
      · subst huw
        rw [lookupG_cons_pos, lookupG_cons_pos, if_neg (fun h => huv h)]
      · rw [lookupG_cons_neg _ _ _ _ huw, lookupG_cons_neg _ _ _ _ huw, ih]

lemma lookupG_groupsOf_foldl (i : Nat) :
    ∀ (l : List Row) (gs : List (Value × List Row)) (v : Value),
      lookupG (l.foldl (fun gs r => addToGroup gs (getCol r i) r) gs) v =
        lookupG gs v ++ l.filter (fun r => getCol r i = v) := by
  intro l
  induction l with
  | nil => simp
  | cons r l ih =>
    intro gs v
    rw [List.foldl_cons, ih, lookupG_addToGroup, List.filter_cons]
    by_cases hv : getCol r i = v
    · rw [if_pos (hv.symm), if_pos (decide_eq_true hv)]
      simp
    · rw [if_neg (fun h => hv h.symm), if_neg (by simp [hv])]

lemma lookupG_groupsOf (data : List Row) (i : Nat) (v : Value) :
    lookupG (groupsOf data i) v = data.filter (fun r => getCol r i = v) := by
  unfold groupsOf
  rw [lookupG_groupsOf_foldl i data [] v, lookupG_nil, List.nil_append]

lemma keys_addToGroup (gs : List (Value × List Row)) (v : Value) (r : Row) :
    (addToGroup gs v r).map Prod.fst =
      if v ∈ gs.map Prod.fst then gs.map Prod.fst else gs.map Prod.fst ++ [v] := by
  induction gs with
  | nil => simp [addToGroup]
  | cons q rest ih =>
    obtain ⟨w, rs⟩ := q
    by_cases hwv : w = v
    · subst hwv
      simp [addToGroup]
    · have hvw : ¬ v = w := fun h => hwv h.symm
      simp only [addToGroup, if_neg hwv, List.map_cons, ih, List.mem_cons, hvw, false_or]
      by_cases hv : v ∈ rest.map Prod.fst
      · simp [hv]
      · simp [hv]

lemma groupsOf_keys_nodup (data : List Row) (i : Nat) :
    ((groupsOf data i).map Prod.fst).Nodup := by
  suffices h : ∀ (l : List Row) (gs : List (Value × List Row)),
      (gs.map Prod.fst).Nodup →
      ((l.foldl (fun gs r => addToGroup gs (getCol r i) r) gs).map Prod.fst).Nodup by
    exact h data [] (by simp)
  intro l
  induction l with
  | nil => intro gs h; simpa using h
  | cons r l ih =>
    intro gs h
    rw [List.foldl_cons]
    apply ih
    rw [keys_addToGroup]
    by_cases hv : getCol r i ∈ gs.map Prod.fst
    · simpa [hv] using h
    · rw [if_neg hv]
      simpa [List.nodup_append, hv] using h

lemma groupsOf_keys_mem (data : List Row) (i : Nat) (w : Value) :
    w ∈ (groupsOf data i).map Prod.fst ↔ w ∈ data.map (fun r => getCol r i) := by
  suffices h : ∀ (l : List Row) (gs : List (Value × List Row)),
      (w ∈ (l.foldl (fun gs r => addToGroup gs (getCol r i) r) gs).map Prod.fst ↔
        w ∈ gs.map Prod.fst ∨ w ∈ l.map (fun r => getCol r i)) by
    rw [groupsOf, h data []]
    simp
  intro l
  induction l with
  | nil => simp
  | cons r l ih =>
    intro gs
    rw [List.foldl_cons, ih, keys_addToGroup]
    by_cases hv : getCol r i ∈ gs.map Prod.fst
    · simp only [if_pos hv, List.map_cons, List.mem_cons]
      constructor
      · rintro (h | h)
        · exact Or.inl h
        · exact Or.inr (Or.inr h)
      · rintro (h | rfl | h)
        · exact Or.inl h
        · exact Or.inl hv
        · exact Or.inr h
    · simp only [if_neg hv, List.map_cons, List.mem_append, List.mem_singleton,
        List.mem_cons]
      tauto

lemma assoc_snd_eq_lookupG :
    ∀ (gs : List (Value × List Row)), (gs.map Prod.fst).Nodup →
      ∀ p ∈ gs, p.2 = lookupG gs p.1 := by
  intro gs
  induction gs with
  | nil => simp
  | cons q rest ih =>
    intro hnd p hp
    simp only [List.map_cons, List.nodup_cons] at hnd
    rcases List.mem_cons.1 hp with rfl | hp'
    · unfold lookupG
      rw [List.find?_cons_of_pos _ (by simp)]
      simp
    · have hne : q.1 ≠ p.1 := fun he =>
        hnd.1 (he ▸ List.mem_map_of_mem Prod.fst hp')
      unfold lookupG
      rw [List.find?_cons_of_neg _ (by simp [hne])]
      exact ih hnd.2 p hp'

/-- Each group of `groupsOf` is exactly the subset of rows carrying its key. -/
lemma groupsOf_snd_eq_filter (data : List Row) (i : Nat) (p : Value × List Row)
    (hp : p ∈ groupsOf data i) :
    p.2 = data.filter (fun r => getCol r i = p.1) := by
  rw [← lookupG_groupsOf data i p.1]
  exact assoc_snd_eq_lookupG _ (groupsOf_keys_nodup data i) p hp

/-! ## Serializer equations and child ordering -/

lemma attach_flatMap {α β : Type} (l : List α) (f : α → List β) :
    l.attach.flatMap (fun c => f c.1) = l.flatMap f := by
  rw [← List.attach_map_subtype_val l, List.flatMap_map, List.attach_map_subtype_val]

lemma print_tree_none (lvl : Nat) (pfx : String) :
    print_tree none lvl pfx = [indentOf lvl ++ pfx ++ "Brak drzewa"] := by
  rw [print_tree.eq_def]

lemma print_tree_leaf (lab : Value) (lvl : Nat) (pfx : String) :
    print_tree (some (.leaf lab)) lvl pfx
      = [indentOf lvl ++ pfx ++ " -> D: " ++ lab.toStr] := by
  rw [print_tree.eq_def]

lemma print_tree_node (a : Nat) (ch : List (Value × Option Tree)) (lvl : Nat)
    (pfx : String) :
    print_tree (some (.node a ch)) lvl pfx
      = (if lvl = 0 then "Atrybut: " ++ toString (a + 1)
         else indentOf lvl ++ pfx ++ "->Atrybut: " ++ toString (a + 1))
        :: (sortChildren ch).flatMap
            (fun c => print_tree c.2 (lvl + 1) c.1.toStr) := by
  have h0 : print_tree (some (.node a ch)) lvl pfx
      = (if lvl = 0 then "Atrybut: " ++ toString (a + 1)
         else indentOf lvl ++ pfx ++ "->Atrybut: " ++ toString (a + 1))
        :: (sortChildren ch).attach.flatMap
            (fun c => print_tree c.1.2 (lvl + 1) c.1.1.toStr) := by
    rw [print_tree.eq_def]
  rw [h0, attach_flatMap (sortChildren ch)
    (fun c => print_tree c.2 (lvl + 1) c.1.toStr)]

/-- The serializer's child list is sorted (weakly increasing) in the string
form of the branch values. -/
lemma sortChildren_sorted (ch : List (Value × Option Tree)) :
    List.Pairwise (fun a b : Value × Option Tree => a.1.toStr ≤ b.1.toStr)
      (sortChildren ch) := by
  unfold sortChildren
  have h := @List.sorted_mergeSort (Value × Option Tree)
    (fun a b => decide (a.1.toStr ≤ b.1.toStr))
    (fun a b c hab hbc =>
      decide_eq_true (le_trans (of_decide_eq_true hab) (of_decide_eq_true hbc)))
    (fun a b => by
      rcases le_total a.1.toStr b.1.toStr with h | h
      · simp [h]
      · simp [h])
    ch
  exact h.imp fun hab => of_decide_eq_true hab

lemma sortChildren_perm (ch : List (Value × Option Tree)) :
    (sortChildren ch).Perm ch :=
  List.mergeSort_perm ch _

/-! ## The specification's formula for conditional information -/

/-- Modelled directly from the spec's words (§4.2): partition the table
into groups keyed by the attribute's value, and return the size-weighted
sum over distinct values of the entropy of each group's decision
distribution.  Groups are written as row filters here; compared against
the source's `calculate_attribute_info` below. -/
noncomputable def conditional_info_spec (data : List Row) (attribute_index : Nat) : ℝ :=
  ∑ v ∈ (data.map (fun r => getCol r attribute_index)).toFinset,
    (((data.filter (fun r => getCol r attribute_index = v)).length : ℝ) /
        (data.length : ℝ)) *
      calculate_entropy
        (distOf ((data.filter (fun r => getCol r attribute_index = v)).map lastCol))

lemma attribute_info_eq_spec (data : List Row) (i : Nat) :
    calculate_attribute_info data i = conditional_info_spec data i := by
  rw [calculate_attribute_info_eq_sum]
  unfold conditional_info_spec
  have h1 : (groupsOf data i).map (fun p =>
      ((p.2.length : ℝ) / (data.length : ℝ)) *
        calculate_entropy (distOf (p.2.map lastCol)))
    = (groupsOf data i).map (fun p =>
      (((data.filter (fun r => getCol r i = p.1)).length : ℝ) /
          (data.length : ℝ)) *
        calculate_entropy
          (distOf ((data.filter (fun r => getCol r i = p.1)).map lastCol))) :=
    List.map_congr_left fun p hp => by
      rw [← groupsOf_snd_eq_filter data i p hp]
  have h2 : (groupsOf data i).map (fun p =>
      (((data.filter (fun r => getCol r i = p.1)).length : ℝ) /
          (data.length : ℝ)) *
        calculate_entropy
          (distOf ((data.filter (fun r => getCol r i = p.1)).map lastCol)))
    = ((groupsOf data i).map Prod.fst).map (fun v =>
      (((data.filter (fun r => getCol r i = v)).length : ℝ) /
          (data.length : ℝ)) *
        calculate_entropy
          (distOf ((data.filter (fun r => getCol r i = v)).map lastCol))) := by
    rw [List.map_map]
    rfl
  have h3 : ((groupsOf data i).map Prod.fst).toFinset
      = (data.map (fun r => getCol r i)).toFinset := by
    ext v
    rw [List.mem_toFinset, List.mem_toFinset, groupsOf_keys_mem]
  rw [h1, h2, ← List.sum_toFinset _ (groupsOf_keys_nodup data i), h3]

/-! ## Concrete evaluations used by the witnesses -/

/-- A 2×2 sample table: attribute 0 separates the two decision classes. -/
def pairTable : List Row :=
  [[Value.vInt 1, Value.vInt 1], [Value.vInt 2, Value.vInt 2]]

lemma calculate_entropy_pair (a b : Value) :
    calculate_entropy [(a, 1), (b, 1)] = 1 := by
  unfold calculate_entropy
  simp only [List.map_cons, List.map_nil, List.sum_cons, List.sum_nil,
    List.foldl_cons, List.foldl_nil]
  norm_num
  have hl2 : Real.log 2 ≠ 0 :=
    Real.log_ne_zero_of_pos_of_ne_one (by norm_num) (by norm_num)
  have hlb : Real.logb 2 ((1 : ℝ) / 2) = -1 := by
    rw [show ((1 : ℝ) / 2) = (2 : ℝ)⁻¹ by norm_num]
    show Real.log ((2 : ℝ)⁻¹) / Real.log 2 = -1
    rw [Real.log_inv, neg_div, div_self hl2]
  rw [hlb]
  norm_num

lemma pairTable_split : calculate_split_info pairTable 0 = 1 := by
  unfold calculate_split_info
  rw [show distOf (pairTable.map (fun r => getCol r 0))
      = [(Value.vInt 1, 1), (Value.vInt 2, 1)] from rfl]
  exact calculate_entropy_pair _ _

lemma pairTable_cond : calculate_attribute_info pairTable 0 = 0 := by
  rw [calculate_attribute_info_eq_sum]
  rw [show groupsOf pairTable 0
      = [(Value.vInt 1, [[Value.vInt 1, Value.vInt 1]]),
         (Value.vInt 2, [[Value.vInt 2, Value.vInt 2]])] from rfl]
  simp only [List.map_cons, List.map_nil, List.sum_cons, List.sum_nil]
  rw [show distOf [lastCol [Value.vInt 1, Value.vInt 1]]
      = [(Value.vInt 1, 1)] from rfl,
    show distOf [lastCol [Value.vInt 2, Value.vInt 2]]
      = [(Value.vInt 2, 1)] from rfl,
    calculate_entropy_single, calculate_entropy_single]
  norm_num

lemma pairTable_gr : calculate_gain_ratio pairTable 0 1 = 1 := by
  unfold calculate_gain_ratio
  rw [pairTable_split, if_neg one_ne_zero]
  unfold calculate_gain
  rw [pairTable_cond]
  norm_num

lemma pairTable_sel : selectBest pairTable 1 1 = (some 0, 1) := by
  unfold selectBest
  rw [show List.range 1 = [0] from rfl, List.foldl_cons, List.foldl_nil]
  rw [show ((none : Option Nat), (-1 : ℝ)).2 = (-1 : ℝ) from rfl]
  rw [pairTable_gr]
  rw [if_pos (by norm_num : (-1 : ℝ) < 1)]

/-- On a two-row single-column table (decision column only, no condition
attributes), the builder reaches the splitting step with
`best_attribute = None` and raises the Python `TypeError`. -/
lemma build_tree_single_column :
    build_tree [[Value.vInt 1], [Value.vInt 2]]
      = .error "TypeError: list indices must be integers or slices, not NoneType" := by
  rw [build_tree.eq_def]
  have hb : (([[Value.vInt 2]] : List Row).all
      fun r => decide (lastCol r = lastCol [Value.vInt 1])) = false := by decide
  simp only [hb]
  rw [if_neg (by simp)]
  have hsel : selectBest [[Value.vInt 1], [Value.vInt 2]]
      (calculate_entropy (distOf ([[Value.vInt 1], [Value.vInt 2]].map lastCol)))
      (([Value.vInt 1] : Row).length - 1) = ((none : Option Nat), (-1 : ℝ)) := rfl
  simp only [hsel]
  rw [dif_neg (by norm_num : ¬ (((none : Option Nat), (-1 : ℝ)).2 = 0))]
  split
  · rfl
  · next b hA =>
    rw [hsel] at hA
    simp at hA

/-! ## The claims -/

/-- Claim C10: `calculate_entropy` applied to an empty distribution (no
keys, total count 0) returns `0.0` and does not raise a division-by-zero
error, because the summation loop body containing the division never
executes; the function is total even outside the `total > 0` precondition. -/
theorem claim_C10_entropy_empty_dist :
    calculate_entropy [] = 0 ∧ (([] : List (Value × Nat)).map Prod.snd).sum = 0 :=
  ⟨rfl, rfl⟩

/-- Claim C5: on the empty table, `build_tree` returns the "no tree"
sentinel (Python `None`) — not a node and not an exception — and the
serializer renders that sentinel as exactly one fixed no-tree marker line
at the current indentation/prefix. -/
theorem claim_C5_empty_table_sentinel :
    build_tree ([] : List Row) = .ok none ∧
    ∀ (lvl : Nat) (pfx : String),
      print_tree none lvl pfx = [indentOf lvl ++ pfx ++ "Brak drzewa"] :=
  ⟨by rw [build_tree.eq_def], fun lvl pfx => print_tree_none lvl pfx⟩

/-- Claim C3: `calculate_gain_ratio` is `gain / split_info`, except that
when the split info is exactly `0` (in particular for an attribute that is
constant across the table) it returns exactly `0` instead of raising a
division error. -/
theorem claim_C3_zero_split_policy (data : List Row) (i : Nat) (H : ℝ) :
    (calculate_gain_ratio data i H =
      if calculate_split_info data i = 0 then 0
      else calculate_gain data i H / calculate_split_info data i) ∧
    ((∀ r ∈ data, ∀ s ∈ data, getCol r i = getCol s i) →
      calculate_gain_ratio data i H = 0) :=
  ⟨rfl, fun hconst => by
    unfold calculate_gain_ratio
    rw [if_pos (split_info_eq_zero_of_const data i hconst)]⟩

/-- Witness for C3: a concrete table whose attribute 0 is constant. -/
theorem claim_C3_witness :
    calculate_gain_ratio
      [[Value.vInt 1, Value.vInt 2], [Value.vInt 1, Value.vInt 3]] 0 1 = 0 :=
  (claim_C3_zero_split_policy
    [[Value.vInt 1, Value.vInt 2], [Value.vInt 1, Value.vInt 3]] 0 1).2 (by decide)

/-- Claim C4: on a nonempty table and valid condition-attribute index,
`calculate_attribute_info` partitions the rows into groups by the value at
that index, builds the decision-column (last column) distribution of each
group, and returns the size-weighted sum over groups of `|group|/|table|`
times the Shannon base-2 entropy of the group's decision distribution —
i.e. it equals the spec's formula `conditional_info_spec`. -/
theorem claim_C4_conditional_info (data : List Row) (i : Nat)
    (hne : data ≠ []) (hi : ∀ r ∈ data, i + 1 < r.length) :
    calculate_attribute_info data i = conditional_info_spec data i :=
  attribute_info_eq_spec data i

/-- Witness for C4 on the 2×2 sample table. -/
theorem claim_C4_witness :
    calculate_attribute_info pairTable 0 = conditional_info_spec pairTable 0 :=
  claim_C4_conditional_info pairTable 0 (by decide) (by decide)

/-- Claim C6: the serializer visits the children of every internal node in
ascending lexicographic order of the string form of their branch values
(keys are stringified before comparison, so mixed int/string keys compare
consistently): the traversal uses `sortChildren`, whose output is sorted
by the stringified key and is a permutation of the stored children; and
serializing the same tree twice yields identical output (the serializer is
a pure function of the tree). -/
theorem claim_C6_sorted_children :
    (∀ (a : Nat) (ch : List (Value × Option Tree)) (lvl : Nat) (pfx : String),
      print_tree (some (.node a ch)) lvl pfx
        = (if lvl = 0 then "Atrybut: " ++ toString (a + 1)
           else indentOf lvl ++ pfx ++ "->Atrybut: " ++ toString (a + 1))
          :: (sortChildren ch).flatMap
              (fun c => print_tree c.2 (lvl + 1) c.1.toStr)) ∧
    (∀ ch : List (Value × Option Tree),
      List.Pairwise (fun c d : Value × Option Tree => c.1.toStr ≤ d.1.toStr)
        (sortChildren ch)) ∧
    (∀ ch : List (Value × Option Tree), (sortChildren ch).Perm ch) ∧
    (∀ (t : Option Tree) (lvl : Nat) (pfx : String),
      print_tree t lvl pfx = print_tree t lvl pfx) :=
  ⟨print_tree_node, sortChildren_sorted, sortChildren_perm, fun _ _ _ => rfl⟩

/-- Claim C7 is false as stated: the root internal line of the serializer
is the Polish literal `"Atrybut: 1"`, not `"Attribute: 1"` as the claim's
format contract demands, shown here on a concrete one-node tree. -/
theorem claim_C7_counterexample :
    print_tree (some (.node 0 [])) 0 "" = ["Atrybut: 1"] ∧
    "Atrybut: 1" ≠ "Attribute: 1" := by
  constructor
  · rw [print_tree_node, if_pos rfl,
      show sortChildren [] = [] by simp [sortChildren]]
    rfl
  · decide

/-- Claim C7 (amended): the serializer's bit-exact format, with the actual
literals of the code — `"Atrybut: "` (Polish), not `"Attribute: "`: a
fixed ten-space indentation block per depth level; every leaf renders as
`<indent><branch-label> -> D: <decision-label>`; the root internal node as
`Atrybut: <1-based index>` with no indentation; every non-root internal
node as `<indent><branch-label>->Atrybut: <1-based index>`; the no-tree
sentinel as `<indent><branch-label>Brak drzewa`. -/
theorem claim_C7_format (a : Nat) (ch : List (Value × Option Tree))
    (lab : Value) (lvl : Nat) (pfx : String) :
    (indentOf lvl = String.join (List.replicate lvl "          ")) ∧
    (print_tree (some (.leaf lab)) lvl pfx
      = [indentOf lvl ++ pfx ++ " -> D: " ++ lab.toStr]) ∧
    ((print_tree (some (.node a ch)) 0 pfx).head?
      = some ("Atrybut: " ++ toString (a + 1))) ∧
    (lvl ≠ 0 → (print_tree (some (.node a ch)) lvl pfx).head?
      = some (indentOf lvl ++ pfx ++ "->Atrybut: " ++ toString (a + 1))) ∧
    (print_tree none lvl pfx = [indentOf lvl ++ pfx ++ "Brak drzewa"]) := by
  refine ⟨rfl, print_tree_leaf lab lvl pfx, ?_, fun h0 => ?_,
    print_tree_none lvl pfx⟩
  · rw [print_tree_node, if_pos rfl]
    rfl
  · rw [print_tree_node, if_neg h0]
    rfl

/-- Witness for C7 (amended) at a non-root internal node. -/
theorem claim_C7_format_witness :
    (print_tree (some (.node 0 [])) 1 "x").head?
      = some (indentOf 1 ++ "x" ++ "->Atrybut: " ++ toString (0 + 1)) :=
  (claim_C7_format 0 [] (Value.vInt 0) 1 "x").2.2.2.1 (by decide)

/-- Claim C9: every recursive call of the builder receives a strictly
smaller row subset: a selected attribute with nonzero best gain ratio has
more than one distinct value in the current table, so each value-filtered
subset is a proper subset of the rows.  `build_tree` is defined by
well-founded recursion on exactly this measure, so it terminates on every
rectangular table with at least one condition attribute. -/
theorem claim_C9_strict_decrease (data : List Row) (H : ℝ) (n i : Nat)
    (hsel : (selectBest data H n).1 = some i)
    (hnz : (selectBest data H n).2 ≠ 0) :
    ∀ v : Value, (data.filter (fun r => getCol r i = v)).length < data.length :=
  subset_lt_of_selected data H n i hsel hnz

/-- Witness for C9 on the 2×2 sample table, where attribute 0 is selected
with gain ratio `1`. -/
theorem claim_C9_witness :
    (pairTable.filter (fun r => getCol r 0 = Value.vInt 1)).length
      < pairTable.length :=
  claim_C9_strict_decrease pairTable 1 1 0
    (by rw [pairTable_sel]) (by rw [pairTable_sel]; norm_num)
    (Value.vInt 1)

/-- Claim C1: on every nonempty table with at least one condition
attribute whose rows do not all share the same decision value, the
builder's selection loop scans attribute indices `0..k-1` in ascending
order, computes the gain ratio of each, and selects the first index
attaining the strictly highest gain ratio: when two indices tie, the
lower index is chosen, never a later one. -/
theorem claim_C1_tie_break (r0 : Row) (rest : List Row)
    (hns : ¬ ∀ r ∈ rest, lastCol r = lastCol r0)
    (hk : 2 ≤ r0.length) :
    ∃ i0,
      selectBest (r0 :: rest)
          (calculate_entropy (distOf ((r0 :: rest).map lastCol)))
          (r0.length - 1)
        = (some i0, calculate_gain_ratio (r0 :: rest) i0
            (calculate_entropy (distOf ((r0 :: rest).map lastCol)))) ∧
      i0 < r0.length - 1 ∧
      (∀ j, j < r0.length - 1 →
        calculate_gain_ratio (r0 :: rest) j
            (calculate_entropy (distOf ((r0 :: rest).map lastCol)))
          ≤ calculate_gain_ratio (r0 :: rest) i0
            (calculate_entropy (distOf ((r0 :: rest).map lastCol)))) ∧
      (∀ j, j < i0 →
        calculate_gain_ratio (r0 :: rest) j
            (calculate_entropy (distOf ((r0 :: rest).map lastCol)))
          < calculate_gain_ratio (r0 :: rest) i0
            (calculate_entropy (distOf ((r0 :: rest).map lastCol)))) := by
  have hpos : ∀ j, j < r0.length - 1 →
      -1 < calculate_gain_ratio (r0 :: rest) j
        (calculate_entropy (distOf ((r0 :: rest).map lastCol))) := by
    intro j _
    have h0 := gain_ratio_nonneg (r0 :: rest) j (by simp)
    linarith
  exact selectBest_argmax (r0 :: rest)
    (calculate_entropy (distOf ((r0 :: rest).map lastCol)))
    (r0.length - 1) (by omega) hpos

/-- Witness for C1 on the 2×2 sample table (decisions differ, one
condition attribute). -/
theorem claim_C1_witness :
    ∃ i0,
      selectBest ([Value.vInt 1, Value.vInt 1] :: [[Value.vInt 2, Value.vInt 2]])
          (calculate_entropy (distOf
            (([Value.vInt 1, Value.vInt 1] :: [[Value.vInt 2, Value.vInt 2]]).map
              lastCol)))
          ((Value.vInt 1 :: [Value.vInt 1]).length - 1)
        = (some i0, calculate_gain_ratio
            ([Value.vInt 1, Value.vInt 1] :: [[Value.vInt 2, Value.vInt 2]]) i0
            (calculate_entropy (distOf
              (([Value.vInt 1, Value.vInt 1] :: [[Value.vInt 2, Value.vInt 2]]).map
                lastCol)))) ∧
      i0 < (Value.vInt 1 :: [Value.vInt 1]).length - 1 ∧
      (∀ j, j < (Value.vInt 1 :: [Value.vInt 1]).length - 1 →
        calculate_gain_ratio
            ([Value.vInt 1, Value.vInt 1] :: [[Value.vInt 2, Value.vInt 2]]) j
            (calculate_entropy (distOf
              (([Value.vInt 1, Value.vInt 1] :: [[Value.vInt 2, Value.vInt 2]]).map
                lastCol)))
          ≤ calculate_gain_ratio
            ([Value.vInt 1, Value.vInt 1] :: [[Value.vInt 2, Value.vInt 2]]) i0
            (calculate_entropy (distOf
              (([Value.vInt 1, Value.vInt 1] :: [[Value.vInt 2, Value.vInt 2]]).map
                lastCol)))) ∧
      (∀ j, j < i0 →
        calculate_gain_ratio
            ([Value.vInt 1, Value.vInt 1] :: [[Value.vInt 2, Value.vInt 2]]) j
            (calculate_entropy (distOf
              (([Value.vInt 1, Value.vInt 1] :: [[Value.vInt 2, Value.vInt 2]]).map
                lastCol)))
          < calculate_gain_ratio
            ([Value.vInt 1, Value.vInt 1] :: [[Value.vInt 2, Value.vInt 2]]) i0
            (calculate_entropy (distOf
              (([Value.vInt 1, Value.vInt 1] :: [[Value.vInt 2, Value.vInt 2]]).map
                lastCol)))) :=
  claim_C1_tie_break [Value.vInt 1, Value.vInt 1] [[Value.vInt 2, Value.vInt 2]]
    (by decide) (by decide)

/-- Claim C8 is false as stated: the nonempty rectangular table
`[[1],[2]]`, whose rows have only the decision column, makes the Python
code evaluate `row[None]` and raise a `TypeError` instead of returning a
tree node — the empty table is not the only failure mode. -/
theorem claim_C8_counterexample :
    build_tree [[Value.vInt 1], [Value.vInt 2]]
      = .error "TypeError: list indices must be integers or slices, not NoneType" :=
  build_tree_single_column

/-- Claim C8 (amended): for every nonempty rectangular table with at least
one condition attribute (all rows of one equal length ≥ 2), `build_tree`
returns a tree node: no exception is raised and the "no tree" sentinel is
reserved for the empty table. -/
theorem claim_C8_no_failure (r0 : Row) (rest : List Row)
    (hrect : ∀ r ∈ r0 :: rest, r.length = r0.length) (hk : 2 ≤ r0.length) :
    ∃ t : Tree, build_tree (r0 :: rest) = .ok (some t) :=
  build_tree_total (r0 :: rest).length r0 rest (le_refl _) hrect hk

/-- Witness for C8 (amended) on a one-row table. -/
theorem claim_C8_witness :
    ∃ t : Tree, build_tree [[Value.vInt 1, Value.vInt 2]] = .ok (some t) :=
  claim_C8_no_failure [Value.vInt 1, Value.vInt 2] [] (by decide) (by decide)

/-- Claim C2: stopping policy of the builder on a nonempty rectangular
table with at least one condition attribute: (A) if every row carries the
same decision value, the result is a leaf with that value; (B) otherwise,
if the best gain ratio over all condition attributes is exactly `0`
(equivalently — gain ratios being nonnegative — every attribute's gain
ratio is `0`), the result is a leaf whose label has the highest occurrence
count in the current table (majority vote); otherwise the result is an
internal node.  A leaf is returned exactly in cases (A) or (B). -/
theorem claim_C2_stopping_policy (r0 : Row) (rest : List Row)
    (hrect : ∀ r ∈ r0 :: rest, r.length = r0.length) (hk : 2 ≤ r0.length) :
    ((∀ r ∈ rest, lastCol r = lastCol r0) →
        build_tree (r0 :: rest) = .ok (some (.leaf (lastCol r0)))) ∧
    (¬ (∀ r ∈ rest, lastCol r = lastCol r0) →
      (∀ j, j < r0.length - 1 → calculate_gain_ratio (r0 :: rest) j
          (calculate_entropy (distOf ((r0 :: rest).map lastCol))) = 0) →
      ∃ lab, build_tree (r0 :: rest) = .ok (some (.leaf lab)) ∧
        ∀ v, ((r0 :: rest).map lastCol).count v
          ≤ ((r0 :: rest).map lastCol).count lab) ∧
    (¬ (∀ r ∈ rest, lastCol r = lastCol r0) →
      ¬ (∀ j, j < r0.length - 1 → calculate_gain_ratio (r0 :: rest) j
          (calculate_entropy (distOf ((r0 :: rest).map lastCol))) = 0) →
      ∃ a ch, build_tree (r0 :: rest) = .ok (some (.node a ch))) ∧
    ((∃ lab, build_tree (r0 :: rest) = .ok (some (.leaf lab))) ↔
      ((∀ r ∈ rest, lastCol r = lastCol r0) ∨
        ∀ j, j < r0.length - 1 → calculate_gain_ratio (r0 :: rest) j
          (calculate_entropy (distOf ((r0 :: rest).map lastCol))) = 0)) := by
  have hpos : ∀ j, j < r0.length - 1 →
      -1 < calculate_gain_ratio (r0 :: rest) j
        (calculate_entropy (distOf ((r0 :: rest).map lastCol))) := by
    intro j _
    have h0 := gain_ratio_nonneg (r0 :: rest) j (by simp)
    linarith
  have hB : ¬ (∀ r ∈ rest, lastCol r = lastCol r0) →
      (∀ j, j < r0.length - 1 → calculate_gain_ratio (r0 :: rest) j
        (calculate_entropy (distOf ((r0 :: rest).map lastCol))) = 0) →
      ∃ lab, build_tree (r0 :: rest) = .ok (some (.leaf lab)) ∧
        ∀ v, ((r0 :: rest).map lastCol).count v
          ≤ ((r0 :: rest).map lastCol).count lab := by
    intro hns hz0
    obtain ⟨i0, hsel, hi0, hmax, hfirst⟩ := selectBest_argmax (r0 :: rest)
      (calculate_entropy (distOf ((r0 :: rest).map lastCol)))
      (r0.length - 1) (by omega) hpos
    have hz : (selectBest (r0 :: rest)
        (calculate_entropy (distOf ((r0 :: rest).map lastCol)))
        (r0.length - 1)).2 = 0 := by
      rw [hsel]
      exact hz0 i0 hi0
    refine ⟨majority (distOf ((r0 :: rest).map lastCol)),
      build_tree_cons_majority r0 rest hns hz, ?_⟩
    exact majority_count_max ((r0 :: rest).map lastCol) (by simp)
  have hC : ¬ (∀ r ∈ rest, lastCol r = lastCol r0) →
      ¬ (∀ j, j < r0.length - 1 → calculate_gain_ratio (r0 :: rest) j
        (calculate_entropy (distOf ((r0 :: rest).map lastCol))) = 0) →
      ∃ a ch, build_tree (r0 :: rest) = .ok (some (.node a ch)) := by
    intro hns hnz0
    obtain ⟨i0, hsel, hi0, hmax, hfirst⟩ := selectBest_argmax (r0 :: rest)
      (calculate_entropy (distOf ((r0 :: rest).map lastCol)))
      (r0.length - 1) (by omega) hpos
    have hge : ∀ j, j < r0.length - 1 →
        0 ≤ calculate_gain_ratio (r0 :: rest) j
          (calculate_entropy (distOf ((r0 :: rest).map lastCol))) :=
      fun j _ => gain_ratio_nonneg (r0 :: rest) j (by simp)
    have hg : calculate_gain_ratio (r0 :: rest) i0
        (calculate_entropy (distOf ((r0 :: rest).map lastCol))) ≠ 0 := by
      intro h0
      apply hnz0
      intro j hj
      exact le_antisymm (le_trans (hmax j hj) (le_of_eq h0)) (hge j hj)
    obtain ⟨t, ht⟩ :=
      build_tree_total (r0 :: rest).length r0 rest (le_refl _) hrect hk
    rw [build_tree_cons_node r0 rest i0 _ hns hsel hg] at ht
    cases hm : (((r0 :: rest).map (fun r => getCol r i0)).dedup.mapM
        (fun v => do
          let child ← build_tree
            ((r0 :: rest).filter (fun r => getCol r i0 = v))
          pure (v, child)) : Except String (List (Value × Option Tree))) with
    | error e =>
      rw [hm] at ht
      exact Except.noConfusion
        (show (Except.error e : Except String (Option Tree)) = .ok (some t) from ht)
    | ok ys =>
      refine ⟨i0, ys, ?_⟩
      rw [build_tree_cons_node r0 rest i0 _ hns hsel hg, hm]
      rfl
  refine ⟨fun hall => build_tree_cons_allsame r0 rest hall, hB, hC, ?_⟩
  constructor
  · rintro ⟨lab, hlab⟩
    by_contra hc
    rw [not_or] at hc
    obtain ⟨hns, hnz0⟩ := hc
    obtain ⟨a, ch, hnode⟩ := hC hns hnz0
    rw [hnode] at hlab
    simp at hlab
  · rintro (hall | hz0)
    · exact ⟨lastCol r0, build_tree_cons_allsame r0 rest hall⟩
    · by_cases hall : ∀ r ∈ rest, lastCol r = lastCol r0
      · exact ⟨lastCol r0, build_tree_cons_allsame r0 rest hall⟩
      · obtain ⟨lab, hlab, _⟩ := hB hall hz0
        exact ⟨lab, hlab⟩

/-- Claim C2 is false as stated for a table with no condition attributes:
on `[[1],[2]]` the decisions differ, and the best gain ratio over the
(empty) set of condition attributes is trivially `0`, yet `build_tree`
raises the `row[None]` `TypeError` instead of returning a majority-vote
leaf (or any node at all). -/
theorem claim_C2_counterexample :
    (∀ j, j < ([Value.vInt 1] : Row).length - 1 →
      calculate_gain_ratio [[Value.vInt 1], [Value.vInt 2]] j
        (calculate_entropy
          (distOf ([[Value.vInt 1], [Value.vInt 2]].map lastCol))) = 0) ∧
    ¬ (∀ r ∈ [[Value.vInt 2]], lastCol r = lastCol ([Value.vInt 1] : Row)) ∧
    ¬ ∃ t : Option Tree, build_tree [[Value.vInt 1], [Value.vInt 2]] = .ok t := by
  refine ⟨fun j hj => absurd hj (by simp), by decide, ?_⟩
  rintro ⟨t, ht⟩
  rw [build_tree_single_column] at ht
  exact Except.noConfusion ht

/-- Witness for C2 on a concrete homogeneous-decision table (terminal
condition A). -/
theorem claim_C2_witness :
    build_tree [[Value.vInt 1, Value.vInt 1], [Value.vInt 2, Value.vInt 1]]
      = .ok (some (.leaf (Value.vInt 1))) :=
  (claim_C2_stopping_policy [Value.vInt 1, Value.vInt 1]
    [[Value.vInt 2, Value.vInt 1]] (by decide) (by decide)).1 (by decide)

end C45
